import Mathlib

/-!
Verification of the circle-packing plugin core (`src/utils/dataTransform.ts`,
`src/App.tsx`, `src/components/CirclePacking.tsx`, `src/components/SearchFilter.tsx`)
against its natural-language specification.

Numbers (the `number` weights and coordinates) are embedded as exact rationals `ℚ`.
Strings are embedded as Lean `String` / `List Char`; the whitespace classes are the
ASCII ones used by the JavaScript regular expression and `String.prototype.trim`.
-/

/-- ASCII whitespace characters, the ASCII part of the JavaScript `\s` class. -/
def isWsChar (c : Char) : Bool :=
  c = ' ' || c = '\t' || c = '\n' || c = '\r' || c = '\x0b' || c = '\x0c'

/-- ASCII line terminators; the JavaScript `.` (without the `s` flag) matches
any character except these. -/
def isLineTerm (c : Char) : Bool :=
  c = '\n' || c = '\r'

/-- The character class `[A-Z0-9]` of the suffix group in the level regex. -/
def isSuffixChar (c : Char) : Bool :=
  ('A' ≤ c && c ≤ 'Z') || ('0' ≤ c && c ≤ '9')

/-- `String.prototype.trim` on a character list: drop whitespace from both ends. -/
def trimWs (l : List Char) : List Char :=
  ((l.dropWhile isWsChar).reverse.dropWhile isWsChar).reverse

/-- Whether the prefix read so far can be split as `(.+?)` followed by `\s*`:
there must be a non-empty first part containing no line terminator (JS `.` does
not match line terminators) followed by a whitespace-only rest. -/
def dotOk (pre : List Char) : Bool :=
  if pre.any isLineTerm then
    !(pre.takeWhile (fun c => !isLineTerm c)).isEmpty &&
      (pre.dropWhile (fun c => !isLineTerm c)).all isWsChar
  else
    !pre.isEmpty

/-- Backtracking matcher for the anchored regex `^(.+?)\s*\(([^)]+)\)-([A-Z0-9]+)$`
from `parseLevel`.  The engine tries each `(` position left to right (the lazy
group grows); at a candidate `(` the code group is forced to run to the first `)`
(it cannot contain `)`), then `)-` and the suffix group must reach the end of the
input.  On success it returns the three capture groups (the first one extended by
the whitespace swallowed by `\s*`, which is irrelevant after trimming). -/
def tryMatch : List Char → List Char → Option (List Char × List Char × List Char)
  | _, [] => none
  | pre, c :: tl =>
    if c = '(' && dotOk pre then
      let code := tl.takeWhile (fun d => d ≠ ')')
      match tl.dropWhile (fun d => d ≠ ')') with
      | ')' :: '-' :: sfx =>
        if !code.isEmpty && !sfx.isEmpty && sfx.all isSuffixChar then
          some (pre, code, sfx)
        else
          tryMatch (pre ++ [c]) tl
      | _ => tryMatch (pre ++ [c]) tl
    else
      tryMatch (pre ++ [c]) tl

/-- `ParsedLevel` from `src/types/index.ts`. -/
structure ParsedLevel where
  name : String
  buCode : String
  beblCode : String
  raw : String
deriving DecidableEq, Repr

/-- `parseLevel` from `src/utils/dataTransform.ts`: absent or empty input yields
`none`; a string matching `^(.+?)\s*\(([^)]+)\)-([A-Z0-9]+)$` yields the trimmed
capture groups; any other string yields the name-only fallback.  `raw` is always
the unmodified input. -/
def parseLevel : Option String → Option ParsedLevel
  | none => none
  | some s =>
    if s = "" then none
    else
      match tryMatch [] s.toList with
      | some (n, c, x) =>
        some ⟨String.mk (trimWs n), String.mk (trimWs c), String.mk (trimWs x), s⟩
      | none =>
        some ⟨String.mk (trimWs s.toList), "", "", s⟩

/-- `SigmaDataRow` from `src/types/index.ts`; the weight is `Option ℚ`
(`null`/missing modelled as `none`). -/
structure SigmaDataRow where
  marketValue : Option ℚ
  beblFullName : Option String := none
  level0 : Option String := none
  level1 : Option String := none
  level2 : Option String := none
  level3 : Option String := none
  level4 : Option String := none
  level5 : Option String := none
  level6 : Option String := none
  level7 : Option String := none
  level8 : Option String := none
  level9 : Option String := none
  level10 : Option String := none

/-- The ordered level fields of a row, as listed in `extractPath`. -/
def rowLevels (row : SigmaDataRow) : List (Option String) :=
  [row.level0, row.level1, row.level2, row.level3, row.level4,
   row.level5, row.level6, row.level7, row.level8, row.level9, row.level10]

/-- JavaScript truthiness of an optional level string: `null`, `undefined`
and `""` are falsy. -/
def truthy : Option String → Bool
  | none => false
  | some s => !(s = "")

/-- The loop body of `extractPath`: stop at the first falsy level, otherwise
parse and collect. -/
def extractPathList : List (Option String) → List ParsedLevel
  | [] => []
  | lvl :: rest =>
    if truthy lvl then
      match parseLevel lvl with
      | some parsed => parsed :: extractPathList rest
      | none => extractPathList rest
    else []

/-- `extractPath` from `src/utils/dataTransform.ts`. -/
def extractPath (row : SigmaDataRow) : List ParsedLevel :=
  extractPathList (rowLevels row)

/-- `buildPathKey` from `src/utils/dataTransform.ts`. -/
def buildPathKey (pathArray : List ParsedLevel) : String :=
  String.intercalate "|" (pathArray.map (·.raw))

/-- `HierarchyNode` from `src/types/index.ts`.  Optional fields that the root
never carries are `Option`s; `value` is the node's direct market value. -/
inductive HNode where
  | mk (name : String) (buCode : Option String) (beblCode : Option String)
       (beblFullName : Option String) (rawLabel : Option String)
       (value : Option ℚ) (level : Int) (path : String)
       (children : List HNode)

def HNode.name : HNode → String
  | .mk nm _ _ _ _ _ _ _ _ => nm

def HNode.buCode : HNode → Option String
  | .mk _ bu _ _ _ _ _ _ _ => bu

def HNode.beblCode : HNode → Option String
  | .mk _ _ bb _ _ _ _ _ _ => bb

def HNode.beblFullName : HNode → Option String
  | .mk _ _ _ bf _ _ _ _ _ => bf

def HNode.rawLabel : HNode → Option String
  | .mk _ _ _ _ rl _ _ _ _ => rl

def HNode.value : HNode → Option ℚ
  | .mk _ _ _ _ _ v _ _ _ => v

def HNode.level : HNode → Int
  | .mk _ _ _ _ _ _ lv _ _ => lv

def HNode.path : HNode → String
  | .mk _ _ _ _ _ _ _ p _ => p

def HNode.children : HNode → List HNode
  | .mk _ _ _ _ _ _ _ _ cs => cs

mutual
/-- Total direct value of a subtree: the node's own `value` (0 when absent)
plus the direct values of all descendants. -/
def sumDirect : HNode → ℚ
  | .mk _ _ _ _ _ v _ _ cs => v.getD 0 + sumDirectList cs
termination_by structural n => n
def sumDirectList : List HNode → ℚ
  | [] => 0
  | c :: cs => sumDirect c + sumDirectList cs
termination_by structural l => l
end

mutual
/-- `findNodeByPath` from `src/utils/dataTransform.ts` (the local `findNode`
helpers in `App.tsx` and `CirclePacking.tsx` are identical). -/
def findNodeByPath : HNode → String → Option HNode
  | .mk nm bu bb bf rl v lv p cs, target =>
    if p = target then some (.mk nm bu bb bf rl v lv p cs)
    else findNodeInList cs target
termination_by structural n => n
def findNodeInList : List HNode → String → Option HNode
  | [], _ => none
  | c :: cs, target =>
    match findNodeByPath c target with
    | some found => some found
    | none => findNodeInList cs target
termination_by structural l => l
end

/-- The leaf-value update of `transformToHierarchy`: add to an existing value,
or initialize it. -/
def addValue (node : HNode) (mv : ℚ) : HNode :=
  match node with
  | .mk nm bu bb bf rl v lv p cs =>
    .mk nm bu bb bf rl
      (match v with
       | some w => some (w + mv)
       | none => some mv) lv p cs

/-- Look up the child carrying the given path key (the `nodeMap.has`/`get` pair
of `transformToHierarchy`, read through the parent's children). -/
def findChildByKey (key : String) : List HNode → Option HNode
  | [] => none
  | c :: cs => if c.path = key then some c else findChildByKey key cs

/-- Write back an updated child in place of the first child with the given key. -/
def replaceFirstByKey (key : String) (x : HNode) : List HNode → List HNode
  | [] => []
  | c :: cs => if c.path = key then x :: cs else c :: replaceFirstByKey key x cs

/-- The per-row walk of `transformToHierarchy`: descend along the parsed path,
creating missing nodes (appended at the end of the parent's children, value set
when the row ends there) and adding the row's weight at the last level of the
path.  `pfx` is the already-consumed part of the path, `m` the `beblFullNameMap`
lookup. -/
def insertPath (m : String → Option String) (mv : ℚ) :
    List ParsedLevel → List ParsedLevel → HNode → HNode
  | _, [], node => node
  | pfx, l :: rest, .mk nm bu bb bf rl v lv p cs =>
    let key := buildPathKey (pfx ++ [l])
    match findChildByKey key cs with
    | some child =>
      let child1 := if rest.isEmpty then addValue child mv else child
      let child2 := insertPath m mv (pfx ++ [l]) rest child1
      .mk nm bu bb bf rl v lv p (replaceFirstByKey key child2 cs)
    | none =>
      let base : HNode :=
        .mk l.name (some l.buCode) (some l.beblCode) (m key) (some l.raw)
          (if rest.isEmpty then some mv else none) (Int.ofNat pfx.length) key []
      let child2 := insertPath m mv (pfx ++ [l]) rest base
      .mk nm bu bb bf rl v lv p (cs ++ [child2])

/-- The root node created at the top of `transformToHierarchy`. -/
def rootNode : HNode := .mk "Root" none none none none none (-1) "" []

/-- The body of the `rows.forEach` of `transformToHierarchy` for one row:
rows with an empty extracted path are skipped, otherwise the path is inserted
with the row's weight (`row.marketValue || 0`). -/
def stepRow (m : String → Option String) (root : HNode) (row : SigmaDataRow) : HNode :=
  let marketValue := row.marketValue.getD 0
  let path := extractPath row
  if path.isEmpty then root else insertPath m marketValue [] path root

/-- `transformToHierarchy` from `src/utils/dataTransform.ts`; `m` is the
`beblFullNameMap` lookup function. -/
def transformToHierarchy (rows : List SigmaDataRow) (m : String → Option String) : HNode :=
  rows.foldl (stepRow m) rootNode

/-- `SearchResult` from `src/types/index.ts`. -/
structure SearchResult where
  name : String
  buCode : Option String
  beblCode : Option String
  beblFullName : Option String
  rawLabel : Option String
  path : String
  value : ℚ
  level : Int
deriving DecidableEq, Repr

mutual
/-- `flattenHierarchy` from `src/utils/dataTransform.ts`: skip the root
(`level < 0`), push a record with `value = node.value || 0`, then recurse over
the children, threading the accumulator. -/
def flattenHierarchy : HNode → List SearchResult → List SearchResult
  | .mk nm bu bb bf rl v lv p cs, results =>
    let results1 :=
      if 0 ≤ lv then results ++ [⟨nm, bu, bb, bf, rl, p, v.getD 0, lv⟩] else results
    flattenChildren cs results1
termination_by structural n => n
def flattenChildren : List HNode → List SearchResult → List SearchResult
  | [], results => results
  | c :: cs, results => flattenChildren cs (flattenHierarchy c results)
termination_by structural l => l
end

mutual
/-- All nodes of a subtree in preorder (node first, then children left to right). -/
def preorderNodes : HNode → List HNode
  | .mk nm bu bb bf rl v lv p cs => .mk nm bu bb bf rl v lv p cs :: preorderList cs
termination_by structural n => n
def preorderList : List HNode → List HNode
  | [] => []
  | c :: cs => preorderNodes c ++ preorderList cs
termination_by structural l => l
end

/-- The record `flattenHierarchy` pushes for one node. -/
def toRecord (n : HNode) : SearchResult :=
  ⟨n.name, n.buCode, n.beblCode, n.beblFullName, n.rawLabel, n.path,
   n.value.getD 0, n.level⟩

/-- The non-root nodes of a subtree in preorder. -/
def nonRootNodes (n : HNode) : List HNode :=
  (preorderNodes n).filter (fun x => 0 ≤ x.level)

mutual
/-- Modelled from the spec: the aggregate weight that
`d3.hierarchy(focusedNode).sum(d => d.value || 0)` assigns to every node in
`CirclePacking.tsx` (the d3 library itself is not part of the repository).
d3's `sum` accumulates in post-order: a node's value is its own
`value || 0` plus the accumulated values of its children. -/
def d3sumValue : HNode → ℚ
  | .mk _ _ _ _ _ v _ _ cs => v.getD 0 + d3sumChildren cs
termination_by structural n => n
def d3sumChildren : List HNode → ℚ
  | [] => 0
  | c :: cs => d3sumValue c + d3sumChildren cs
termination_by structural l => l
end

/-- The pieces of `App.tsx` state touched by `handleSearchSelect`. -/
structure AppState where
  focusedPath : Option String
  breadcrumbs : List HNode

mutual
/-- The breadcrumb-building `findPath` of `handleSearchSelect` in `App.tsx`:
on the target it returns the trail containing the target (when its level is
non-negative); on the way out every ancestor with non-negative level is put in
front. `none` means the target was not found in this subtree. -/
def findPathTrail : HNode → String → Option (List HNode)
  | .mk nm bu bb bf rl v lv p cs, targetPath =>
    if p = targetPath then
      some (if 0 ≤ lv then [.mk nm bu bb bf rl v lv p cs] else [])
    else
      match findPathTrailList cs targetPath with
      | some trail =>
        some (if 0 ≤ lv then .mk nm bu bb bf rl v lv p cs :: trail else trail)
      | none => none
termination_by structural n => n
def findPathTrailList : List HNode → String → Option (List HNode)
  | [], _ => none
  | c :: cs, t =>
    match findPathTrail c t with
    | some trail => some trail
    | none => findPathTrailList cs t
termination_by structural l => l
end

/-- `handleSearchSelect` from `src/App.tsx` as a pure state transition:
without data or without a node found at the result's path nothing changes; a
found node with no children does not zoom either; otherwise the focused path
and the breadcrumb trail are set. -/
def handleSearchSelect (hierarchyData : Option HNode) (st : AppState)
    (resultPath : String) : AppState :=
  match hierarchyData with
  | none => st
  | some data =>
    match findNodeByPath data resultPath with
    | none => st
    | some foundNode =>
      if 0 < foundNode.children.length then
        { focusedPath := some resultPath
          breadcrumbs := (findPathTrail data resultPath).getD [] }
      else st

/-- A laid-out node as consumed by the label loop of `CirclePacking.tsx`:
center coordinates, radius and depth. -/
structure PackedNode where
  x : ℚ
  y : ℚ
  r : ℚ
  depth : Nat
deriving DecidableEq, Repr

/-- One insertion step of a stable descending-by-radius sort (the
`sort((a, b) => b.r - a.r)` of the label candidates). -/
def insertByRadius (a : PackedNode) : List PackedNode → List PackedNode
  | [] => [a]
  | b :: bs => if b.r ≤ a.r then a :: b :: bs else b :: insertByRadius a bs

/-- Stable sort of the label candidates by descending radius. -/
def sortByRadiusDesc (l : List PackedNode) : List PackedNode :=
  l.foldr insertByRadius []

/-- The collision test of the label loop: over the reals the code compares
`Math.sqrt(dx*dx + dy*dy) < candidate.r + existing.r - 10`, which holds iff the
bound is positive and the squared distance is below its square. -/
def overlapB (cand existing : PackedNode) : Bool :=
  let dx := cand.x - existing.x
  let dy := cand.y - existing.y
  let distSq := dx * dx + dy * dy
  let minDist := cand.r + existing.r - 10
  0 < minDist && distSq < minDist * minDist

/-- The candidate filter of the label loop: `d.r > 35 && d.depth > 0`. -/
def labelCandidates (nodes : List PackedNode) : List PackedNode :=
  sortByRadiusDesc (nodes.filter (fun d => 35 < d.r && 0 < d.depth))

/-- The greedy accept step: a candidate joins the shown set iff it overlaps no
already-accepted label. -/
def labelStep (shown : List PackedNode) (cand : PackedNode) : List PackedNode :=
  if shown.any (fun existing => overlapB cand existing) then shown
  else shown ++ [cand]

/-- `labelsToShow` of `CirclePacking.tsx`: greedy scan of the sorted candidates. -/
def labelsToShow (nodes : List PackedNode) : List PackedNode :=
  (labelCandidates nodes).foldl labelStep []

/-- `String.prototype.trim` on strings, via the ASCII whitespace class. -/
def strTrim (s : String) : String := String.mk (trimWs s.toList)

/-- `String.prototype.toLowerCase`, character by character. -/
def strLower (s : String) : String := String.mk (s.toList.map Char.toLower)

/-- `String.prototype.includes` on character lists: prefix test. -/
def listStartsWith : List Char → List Char → Bool
  | _, [] => true
  | [], _ :: _ => false
  | c :: cs, t :: ts => c = t && listStartsWith cs ts

/-- `String.prototype.includes` on character lists: contiguous-sublist test. -/
def listIncludes : List Char → List Char → Bool
  | [], t => t.isEmpty
  | c :: cs, t => listStartsWith (c :: cs) t || listIncludes cs t

/-- `haystack.includes(needle)` for strings. -/
def strIncludes (haystack needle : String) : Bool :=
  listIncludes haystack.toList needle.toList

/-- The guarded optional-field test of `searchNodes`
(`result.buCode && result.buCode.toLowerCase().includes(term)`). -/
def optIncludes (o : Option String) (term : String) : Bool :=
  match o with
  | some s => strIncludes (strLower s) term
  | none => false

/-- `searchNodes` from `src/utils/dataTransform.ts`: a blank query returns no
results, otherwise case-insensitive substring filtering over name, BU code,
BEBL code, BEBL full name and raw label. -/
def searchNodes (searchTerm : String) (searchResults : List SearchResult) :
    List SearchResult :=
  if strTrim searchTerm = "" then []
  else
    let term := strLower searchTerm
    searchResults.filter fun r =>
      strIncludes (strLower r.name) term || optIncludes r.buCode term ||
      optIncludes r.beblCode term || optIncludes r.beblFullName term ||
      optIncludes r.rawLabel term

/-- A circle of the packing geometry: center coordinates and radius. -/
structure PackCircle where
  x : ℚ
  y : ℚ
  r : ℚ
deriving DecidableEq, Repr

/-- Squared distance between two circle centers. -/
def dist2 (a b : PackCircle) : ℚ :=
  (a.x - b.x) * (a.x - b.x) + (a.y - b.y) * (a.y - b.y)

/-- Right edge of a placed set of circles (0 when empty); used for the
always-available placement to the right of everything already placed. -/
def maxRight (placed : List PackCircle) : ℚ :=
  placed.foldr (fun c m => max (c.x + c.r) m) 0

/-- Modelled from the spec: the acceptance test of the front-chain packing of
spec 4.3 (the packing code itself is the external d3.pack library, absent from
the repository).  A candidate position for a circle of radius `r` is accepted
iff it overlaps no already-placed circle, where the fixed `padding` gap is
subtracted from tangency: the center distance to every placed circle must be at
least the sum of the radii plus the padding.  Stated sqrt-free over exact
rationals (both sides squared; they are nonnegative whenever radii and padding
are). -/
def okPlacement (padding r : ℚ) (placed : List PackCircle) (pos : ℚ × ℚ) : Bool :=
  placed.all fun c =>
    (r + c.r + padding) * (r + c.r + padding) ≤
      (pos.1 - c.x) * (pos.1 - c.x) + (pos.2 - c.y) * (pos.2 - c.y)

/-- The position to the right of every placed circle, at the padding gap; a
placement there never overlaps, so the spec's search "until a non-overlapping
placement is found" always terminates with an accepted position. -/
def fallbackPos (padding r : ℚ) (placed : List PackCircle) : ℚ × ℚ :=
  (maxRight placed + padding + r, 0)

/-- Modelled from the spec: one placement step of the front-chain packing of
spec 4.3.  The first circle is placed at the origin; the second adjacent and
tangent to it (with the padding gap).  Each subsequent circle tries the tangent
candidate positions offered along the current front — the geometric tangent
computation and the smallest-enclosure preference are kept abstract as the
`proposals` parameter, since the claim's property does not depend on which
non-overlapping position is chosen — and takes the first position passing the
overlap-rejection test; the always-valid far-right position is the final
candidate, realizing the spec's "search ... until a non-overlapping placement
is found". -/
def packStep (proposals : List PackCircle → ℚ → List (ℚ × ℚ)) (padding : ℚ)
    (placed : List PackCircle) (r : ℚ) : List PackCircle :=
  match placed with
  | [] => [⟨0, 0, r⟩]
  | [c] => [c, ⟨c.x + c.r + padding + r, c.y, r⟩]
  | _ =>
    match (proposals placed r ++ [fallbackPos padding r placed]).find?
        (okPlacement padding r placed) with
    | some pos => placed ++ [⟨pos.1, pos.2, r⟩]
    | none => placed

/-- One insertion step of a stable descending sort of the child radii
(descending weight order; radius grows with weight). -/
def insertQDesc (a : ℚ) : List ℚ → List ℚ
  | [] => [a]
  | b :: bs => if b ≤ a then a :: b :: bs else b :: insertQDesc a bs

/-- Stable descending sort of the child radii. -/
def sortQDesc (l : List ℚ) : List ℚ := l.foldr insertQDesc []

/-- Modelled from the spec: packing of the children of one parent per spec
4.3 — process the child radii in descending order and place each by
`packStep`. -/
def packSiblings (proposals : List PackCircle → ℚ → List (ℚ × ℚ)) (padding : ℚ)
    (rs : List ℚ) : List PackCircle :=
  (sortQDesc rs).foldl (packStep proposals padding) []

/-- The final uniform scale-and-translate of spec 4.3 step 4 that fits the
packed subtree into the viewport. -/
def scaleTranslate (s tx ty : ℚ) (c : PackCircle) : PackCircle :=
  ⟨s * c.x + tx, s * c.y + ty, s * c.r⟩

/-! ## Helper lemmas about the level parser -/

theorem suffixChar_not_ws (ch : Char) (h : isSuffixChar ch = true) : isWsChar ch = false := by
  by_contra hw
  simp only [Bool.not_eq_false, isWsChar, Bool.or_eq_true, decide_eq_true_eq] at hw
  rcases hw with ((((rfl | rfl) | rfl) | rfl) | rfl) | rfl <;> simp [isSuffixChar] at h

theorem dropWhile_id_of_head {p : Char → Bool} :
    ∀ l : List Char, (∀ a ∈ l, p a = false) → l.dropWhile p = l := by
  intro l h
  cases l with
  | nil => rfl
  | cons a l => simp [List.dropWhile_cons, h a (by simp)]

theorem trimWs_of_no_ws (l : List Char) (h : ∀ a ∈ l, isWsChar a = false) :
    trimWs l = l := by
  unfold trimWs
  rw [dropWhile_id_of_head l h, dropWhile_id_of_head l.reverse (by simpa using h),
    List.reverse_reverse]

theorem takeWhile_until_paren (t : List Char) :
    ∀ c : List Char, c.all (fun ch => ch ≠ ')') = true →
      (c ++ ')' :: t).takeWhile (fun d => d ≠ ')') = c ∧
      (c ++ ')' :: t).dropWhile (fun d => d ≠ ')') = ')' :: t := by
  intro c
  induction c with
  | nil => intro _; simp [List.takeWhile_cons, List.dropWhile_cons]
  | cons a c ih =>
    intro h
    simp only [List.all_cons, Bool.and_eq_true, decide_eq_true_eq] at h
    have := ih h.2
    simp only [ne_eq, decide_not] at this
    simp [List.cons_append, List.takeWhile_cons, List.dropWhile_cons, h.1, this.1, this.2]

theorem tryMatch_scan (cgrp xgrp : List Char)
    (hc0 : cgrp ≠ []) (hcp : cgrp.all (fun ch => ch ≠ ')') = true)
    (hx0 : xgrp ≠ []) (hxa : xgrp.all isSuffixChar = true) :
    ∀ (n pre : List Char), n.all (fun ch => ch ≠ '(') = true →
      dotOk (pre ++ n) = true →
      tryMatch pre (n ++ '(' :: (cgrp ++ ')' :: '-' :: xgrp)) =
        some (pre ++ n, cgrp, xgrp) := by
  intro n
  induction n with
  | nil =>
    intro pre _ hdot
    rw [List.append_nil] at hdot
    have htk := takeWhile_until_paren ('-' :: xgrp) cgrp hcp
    simp only [List.nil_append, tryMatch, hdot, htk.1, htk.2]
    simp [hc0, hx0, hxa, List.isEmpty_iff]
  | cons ch n ih =>
    intro pre hall hdot
    simp only [List.all_cons, Bool.and_eq_true, decide_eq_true_eq] at hall
    have hch : (ch = '(' : Bool) = false := by simp [hall.1]
    simp only [List.cons_append, tryMatch, hch, Bool.false_and, if_false]
    have := ih (pre ++ [ch]) hall.2 (by simpa using hdot)
    simpa using this

theorem stringMk_ne_empty (l : List Char) (h : l ≠ []) : String.mk l ≠ "" := by
  intro he
  apply h
  have hd : (String.mk l).data = ("" : String).data := by rw [he]
  simpa using hd

theorem parseLevel_raw (s : String) (hs : s ≠ "") :
    ∃ nm bu bb, parseLevel (some s) = some ⟨nm, bu, bb, s⟩ := by
  simp only [parseLevel]
  rw [if_neg hs]
  cases htm : tryMatch [] s.toList with
  | none => exact ⟨_, _, _, rfl⟩
  | some t =>
    obtain ⟨a, b, c⟩ := t
    exact ⟨_, _, _, rfl⟩

/-! ## Claims C2 and C3: the level parser -/

/-- C2 (amended): for an input of the shape `Name(Code)-Suffix` — `Name`
non-empty, containing neither `(` nor a line terminator; `Code` non-empty
without `)`; `Suffix` non-empty over `[A-Z0-9]` (uppercase letters and digits
only, which is what the code's character class accepts) — `parseLevel` returns
the whitespace-trimmed `Name`, the whitespace-trimmed parenthesized `Code`, the
`Suffix` verbatim, and the unmodified input as `raw`. -/
theorem claim2_parseLevel_pattern (n c x : List Char)
    (hn0 : n ≠ []) (hnp : n.all (fun ch => ch ≠ '(') = true)
    (hnl : n.all (fun ch => !isLineTerm ch) = true)
    (hc0 : c ≠ []) (hcp : c.all (fun ch => ch ≠ ')') = true)
    (hx0 : x ≠ []) (hxa : x.all isSuffixChar = true) :
    parseLevel (some (String.mk (n ++ '(' :: (c ++ ')' :: '-' :: x)))) =
      some ⟨String.mk (trimWs n), String.mk (trimWs c), String.mk x,
            String.mk (n ++ '(' :: (c ++ ')' :: '-' :: x))⟩ := by
  have hany : n.any isLineTerm = false := by
    simp only [List.any_eq_false]
    intro a ha
    simpa using List.all_eq_true.mp hnl a ha
  have hdot : dotOk ([] ++ n) = true := by
    simp only [List.nil_append, dotOk, hany, if_false, Bool.not_eq_true',
      List.isEmpty_iff]
    simp [hn0, List.isEmpty_iff]
  have hm := tryMatch_scan c x hc0 hcp hx0 hxa n [] hnp hdot
  have hne : String.mk (n ++ '(' :: (c ++ ')' :: '-' :: x)) ≠ "" :=
    stringMk_ne_empty _ (by simp [hn0])
  have htr : trimWs x = x :=
    trimWs_of_no_ws x (fun a ha => suffixChar_not_ws a (List.all_eq_true.mp hxa a ha))
  simp only [parseLevel]
  rw [if_neg hne]
  have hlist : (String.mk (n ++ '(' :: (c ++ ')' :: '-' :: x))).toList =
      n ++ '(' :: (c ++ ')' :: '-' :: x) := rfl
  rw [hlist, hm]
  simp [htr]

/-- C2 counterexample: `"Foo (1)-ab"` has the shape `Name (Code)-Suffix` with
the alphanumeric suffix `ab`, but the code's suffix class is `[A-Z0-9]`
(uppercase only), so the parser takes the fallback path instead of returning
name `"Foo"`, code `"1"`, suffix `"ab"` as the claim predicts. -/
theorem claim2_counterexample :
    parseLevel (some "Foo (1)-ab") =
      some ⟨"Foo (1)-ab", "", "", "Foo (1)-ab"⟩ ∧
    parseLevel (some "Foo (1)-ab") ≠
      some ⟨"Foo", "1", "ab", "Foo (1)-ab"⟩ := by decide

/-- Witness for C2 on the example string documented in the source. -/
theorem claim2_witness :
    parseLevel (some "Finity Group, LLC (06921)-WN8") =
      some ⟨"Finity Group, LLC", "06921", "WN8",
            "Finity Group, LLC (06921)-WN8"⟩ := by
  have h := claim2_parseLevel_pattern
    ['F','i','n','i','t','y',' ','G','r','o','u','p',',',' ','L','L','C',' ']
    ['0','6','9','2','1'] ['W','N','8']
    (by decide) (by decide) (by decide) (by decide) (by decide) (by decide) (by decide)
  exact h

/-- C3: a non-empty level string never yields `null`: on a regex non-match the
fallback `{name: trimmed input, code: "", suffix: ""}` is returned with `raw`
preserved verbatim; `"Foo (9)-"` takes exactly this fallback path; an absent or
empty input yields `none`. -/
theorem claim3_parseLevel_fallback :
    (∀ s : String, s ≠ "" →
      (parseLevel (some s)).isSome = true ∧
      (tryMatch [] s.toList = none →
        parseLevel (some s) = some ⟨String.mk (trimWs s.toList), "", "", s⟩)) ∧
    parseLevel (some "Foo (9)-") = some ⟨"Foo (9)-", "", "", "Foo (9)-"⟩ ∧
    parseLevel none = none ∧
    parseLevel (some "") = none := by
  refine ⟨fun s hs => ⟨?_, ?_⟩, by decide, rfl, by decide⟩
  · obtain ⟨nm, bu, bb, hp⟩ := parseLevel_raw s hs
    simp [hp]
  · intro h
    simp only [parseLevel]
    rw [if_neg hs, h]

/-- Witness for C3 at the documented fallback example. -/
theorem claim3_witness :
    (parseLevel (some "Foo (9)-")).isSome = true ∧
    parseLevel (some "Foo (9)-") = some ⟨"Foo (9)-", "", "", "Foo (9)-"⟩ := by
  have h := claim3_parseLevel_fallback.1 "Foo (9)-" (by decide)
  exact ⟨h.1, h.2 (by decide)⟩

/-! ## Claim C4: the effective path of a row -/

theorem extractPathList_map_raw : ∀ ls : List (Option String),
    (extractPathList ls).map (·.raw) =
      (ls.takeWhile truthy).map (fun o => o.getD "") := by
  intro ls
  induction ls with
  | nil => rfl
  | cons lvl rest ih =>
    cases lvl with
    | none => simp [extractPathList, truthy, List.takeWhile_cons]
    | some s =>
      by_cases hs : s = ""
      · subst hs
        simp [extractPathList, truthy, List.takeWhile_cons]
      · obtain ⟨nm, bu, bb, hp⟩ := parseLevel_raw s hs
        simp [extractPathList, truthy, hs, hp, List.takeWhile_cons, ih]

/-- C4: a row's effective path is exactly its level fields scanned left to
right up to (and excluding) the first missing/empty one; a row whose first
level is missing has an empty effective path and contributes nothing to the
tree built by `transformToHierarchy`. -/
theorem claim4_effective_path (row : SigmaDataRow) :
    (extractPath row).map (·.raw) =
      ((rowLevels row).takeWhile truthy).map (fun o => o.getD "") ∧
    (truthy row.level0 = false →
      extractPath row = [] ∧ ∀ m root, stepRow m root row = root) := by
  refine ⟨extractPathList_map_raw (rowLevels row), fun h0 => ?_⟩
  have he : extractPath row = [] := by
    simp [extractPath, rowLevels, extractPathList, h0]
  exact ⟨he, fun m root => by simp [stepRow, he]⟩

/-- Witness for C4 on the documented example row `levels = [null, "X (1)-Y"]`. -/
theorem claim4_witness :
    extractPath { marketValue := some 5, level1 := some "X (1)-Y" } = [] ∧
    stepRow (fun _ => none) rootNode
      { marketValue := some 5, level1 := some "X (1)-Y" } = rootNode := by
  have h := (claim4_effective_path
    { marketValue := some 5, level1 := some "X (1)-Y" }).2 (by decide)
  exact ⟨h.1, h.2 (fun _ => none) rootNode⟩

/-! ## Claim C5: direct values conserve the row weights -/

theorem hnode_ind (P : HNode → Prop)
    (h : ∀ nm bu bb bf rl v lv p cs, (∀ c ∈ cs, P c) →
      P (HNode.mk nm bu bb bf rl v lv p cs)) :
    ∀ n, P n := by
  have key : ∀ k (n : HNode), sizeOf n ≤ k → P n := by
    intro k
    induction k with
    | zero =>
      intro n hn
      exfalso
      cases n with
      | mk nm bu bb bf rl v lv p cs => simp at hn
    | succ k ih =>
      intro n hn
      cases n with
      | mk nm bu bb bf rl v lv p cs =>
        apply h
        intro c hc
        apply ih
        have h1 := List.sizeOf_lt_of_mem hc
        simp at hn
        omega
  exact fun n => key (sizeOf n) n (le_refl _)

theorem sumDirect_mk (nm bu bb bf rl v lv p cs) :
    sumDirect (.mk nm bu bb bf rl v lv p cs) = v.getD 0 + sumDirectList cs := by
  rw [sumDirect]

theorem sumDirect_addValue (node : HNode) (mv : ℚ) :
    sumDirect (addValue node mv) = sumDirect node + mv := by
  cases node with
  | mk nm bu bb bf rl v lv p cs =>
    cases v with
    | none => simp [addValue, sumDirect_mk]; ring
    | some w => simp [addValue, sumDirect_mk]; ring

theorem sumDirectList_append (l1 l2 : List HNode) :
    sumDirectList (l1 ++ l2) = sumDirectList l1 + sumDirectList l2 := by
  induction l1 with
  | nil => simp [sumDirectList]
  | cons c cs ih => simp [sumDirectList, ih]; ring

theorem sumDirectList_replace (key : String) (x : HNode) :
    ∀ (cs : List HNode) (c : HNode), findChildByKey key cs = some c →
      sumDirectList (replaceFirstByKey key x cs) =
        sumDirectList cs - sumDirect c + sumDirect x := by
  intro cs
  induction cs with
  | nil => intro c hc; simp [findChildByKey] at hc
  | cons d ds ih =>
    intro c hc
    by_cases hd : d.path = key
    · simp only [findChildByKey, hd, if_pos, Option.some.injEq] at hc
      subst hc
      simp [replaceFirstByKey, hd, sumDirectList]
      ring
    · simp only [findChildByKey, hd, if_neg, if_false] at hc
      simp [replaceFirstByKey, hd, sumDirectList, ih c hc]
      ring

theorem insertPath_sum (m : String → Option String) (mv : ℚ) :
    ∀ (path pfx : List ParsedLevel) (node : HNode), path ≠ [] →
      sumDirect (insertPath m mv pfx path node) = sumDirect node + mv := by
  intro path
  induction path with
  | nil => intro pfx node h; exact absurd rfl h
  | cons l rest ih =>
    intro pfx node _
    cases node with
    | mk nm bu bb bf rl v lv p cs =>
      simp only [insertPath]
      cases hfc : findChildByKey (buildPathKey (pfx ++ [l])) cs with
      | some child =>
        by_cases hr : rest = []
        · subst hr
          simp only [List.isEmpty_nil, if_pos, insertPath]
          rw [sumDirect_mk,
            sumDirectList_replace _ _ cs child hfc, sumDirect_addValue,
            sumDirect_mk]
          ring
        · have hre : rest.isEmpty = false := by
            cases rest with
            | nil => exact absurd rfl hr
            | cons a b => rfl
          simp only [hre, Bool.false_eq_true, if_false]
          rw [sumDirect_mk,
            sumDirectList_replace _ _ cs child hfc, ih (pfx ++ [l]) child hr,
            sumDirect_mk]
          ring
      | none =>
        by_cases hr : rest = []
        · subst hr
          simp only [List.isEmpty_nil, if_pos, insertPath]
          rw [sumDirect_mk, sumDirectList_append, sumDirectList, sumDirectList,
            sumDirect_mk, sumDirectList, sumDirect_mk]
          simp
          ring
        · have hre : rest.isEmpty = false := by
            cases rest with
            | nil => exact absurd rfl hr
            | cons a b => rfl
          simp only [hre, Bool.false_eq_true, if_false]
          rw [sumDirect_mk, sumDirectList_append, sumDirectList, sumDirectList,
            ih (pfx ++ [l]) _ hr, sumDirect_mk, sumDirectList, sumDirect_mk]
          simp
          ring

theorem foldl_stepRow_sum (m : String → Option String) :
    ∀ (rows : List SigmaDataRow) (root : HNode),
      sumDirect (rows.foldl (stepRow m) root) =
        sumDirect root +
          ((rows.filter (fun r => !(extractPath r).isEmpty)).map
            (fun r => r.marketValue.getD 0)).sum := by
  intro rows
  induction rows with
  | nil => intro root; simp
  | cons row rows ih =>
    intro root
    simp only [List.foldl_cons, List.filter_cons]
    by_cases hp : (extractPath row).isEmpty
    · have hstep : stepRow m root row = root := by simp [stepRow, hp]
      simp [hstep, hp, ih]
    · have hne : extractPath row ≠ [] := by
        intro h
        rw [h] at hp
        exact hp rfl
      have hstep : stepRow m root row =
          insertPath m (row.marketValue.getD 0) [] (extractPath row) root := by
        simp [stepRow, hp]
      rw [hstep, ih, insertPath_sum m _ _ [] root hne]
      simp [hp]
      ring

/-- C5: in the tree built by `transformToHierarchy` the direct values sum to
the total weight of the rows with a non-empty effective path; a missing weight
contributes 0 (`row.marketValue || 0`). -/
theorem claim5_sum_conservation (rows : List SigmaDataRow)
    (m : String → Option String) :
    sumDirect (transformToHierarchy rows m) =
      ((rows.filter (fun r => !(extractPath r).isEmpty)).map
        (fun r => r.marketValue.getD 0)).sum := by
  rw [transformToHierarchy, foldl_stepRow_sum]
  simp [rootNode, sumDirect_mk, sumDirectList]

/-! ## Claim C1: what `flattenHierarchy` projects into a record -/

theorem flattenHierarchy_mk (nm bu bb bf rl v lv p cs results) :
    flattenHierarchy (.mk nm bu bb bf rl v lv p cs) results =
      flattenChildren cs
        (if 0 ≤ lv then results ++ [⟨nm, bu, bb, bf, rl, p, v.getD 0, lv⟩]
         else results) := by
  rw [flattenHierarchy]

theorem preorderNodes_mk (nm bu bb bf rl v lv p cs) :
    preorderNodes (.mk nm bu bb bf rl v lv p cs) =
      .mk nm bu bb bf rl v lv p cs :: preorderList cs := by
  rw [preorderNodes]

theorem flatten_eq_nonRoot : ∀ n : HNode, ∀ results,
    flattenHierarchy n results = results ++ (nonRootNodes n).map toRecord := by
  intro n
  induction n using hnode_ind with
  | h nm bu bb bf rl v lv p cs ihcs =>
    have hlist : ∀ (ds : List HNode), (∀ c ∈ ds, ∀ results,
        flattenHierarchy c results = results ++ (nonRootNodes c).map toRecord) →
        ∀ results, flattenChildren ds results =
          results ++ ((preorderList ds).filter (fun x => 0 ≤ x.level)).map toRecord := by
      intro ds
      induction ds with
      | nil => intro _ results; simp [flattenChildren, preorderList]
      | cons c ds ihds =>
        intro hmem results
        rw [flattenChildren, hmem c (by simp),
          ihds (fun d hd => hmem d (by simp [hd])), preorderList]
        simp [nonRootNodes, List.filter_append]
    intro results
    rw [flattenHierarchy_mk, hlist cs ihcs, nonRootNodes, preorderNodes_mk,
      List.filter_cons]
    by_cases hlv : (0 : Int) ≤ lv
    · simp [hlv, toRecord, HNode.name, HNode.buCode, HNode.beblCode,
        HNode.beblFullName, HNode.rawLabel, HNode.path, HNode.value, HNode.level]
    · simp [hlv, HNode.level]

/-- C1 (amended): the record `flattenHierarchy` produces for a non-root node
carries `value = node.value || 0`, the node's own direct value — not the sum of
direct values over the node's subtree.  Precisely, the flatten output is the
preorder list of non-root nodes, each projected by `toRecord` (which copies the
node's own fields and its own direct value). -/
theorem claim1_flatten_projects_direct_value (n : HNode)
    (results : List SearchResult) :
    flattenHierarchy n results = results ++ (nonRootNodes n).map toRecord :=
  flatten_eq_nonRoot n results

/-- The row used by the concrete C1 counterexample. -/
def c1Row : SigmaDataRow :=
  { marketValue := some 100, level0 := some "A (1)-X", level1 := some "B (2)-Y" }

/-- C1 counterexample: in the tree built from one row of weight 100 with path
`A (1)-X / B (2)-Y`, the flatten record for the interior node `A (1)-X` carries
value 0, while the sum of direct values over that node's subtree is 100 — so
the record does not carry the aggregate weight the claim describes. -/
theorem claim1_counterexample :
    (flattenHierarchy (transformToHierarchy [c1Row] (fun _ => none)) []).map
        (fun r => (r.path, r.value)) =
      [("A (1)-X", 0), ("A (1)-X|B (2)-Y", 100)] ∧
    (findNodeByPath (transformToHierarchy [c1Row] (fun _ => none))
        "A (1)-X").map sumDirect = some 100 ∧
    (0 : ℚ) ≠ 100 := by
  refine ⟨by decide, ?_, by norm_num⟩
  have h : findNodeByPath (transformToHierarchy [c1Row] (fun _ => none)) "A (1)-X" =
      some (.mk "A" (some "1") (some "X") none (some "A (1)-X") none 0 "A (1)-X"
        [.mk "B" (some "2") (some "Y") none (some "B (2)-Y") (some 100) 1
          "A (1)-X|B (2)-Y" []]) := by rfl
  rw [h]
  norm_num [sumDirect_mk, sumDirectList]

/-! ## Claim C6: the aggregate weight computed at layout time -/

theorem d3sumValue_mk (nm bu bb bf rl v lv p cs) :
    d3sumValue (.mk nm bu bb bf rl v lv p cs) = v.getD 0 + d3sumChildren cs := by
  rw [d3sumValue]

theorem d3sumValue_eq_subtree_sum : ∀ n : HNode,
    d3sumValue n = ((preorderNodes n).map (fun x => x.value.getD 0)).sum := by
  intro n
  induction n using hnode_ind with
  | h nm bu bb bf rl v lv p cs ihcs =>
    have hlist : ∀ ds : List HNode, (∀ c ∈ ds,
        d3sumValue c = ((preorderNodes c).map (fun x => x.value.getD 0)).sum) →
        d3sumChildren ds = ((preorderList ds).map (fun x => x.value.getD 0)).sum := by
      intro ds
      induction ds with
      | nil => intro _; simp [d3sumChildren, preorderList]
      | cons c ds ihds =>
        intro hmem
        rw [d3sumChildren, preorderList, hmem c (by simp),
          ihds (fun d hd => hmem d (by simp [hd]))]
        simp
    rw [d3sumValue_mk, preorderNodes_mk, hlist cs ihcs]
    simp [HNode.value]

/-- C6: for any focus node reached by path lookup (the way `CirclePacking.tsx`
re-roots), the aggregate weight `d3.hierarchy(...).sum(d => d.value || 0)`
assigns to it equals the sum of direct values over its entire subtree (itself
included), and a childless node's aggregate equals its own direct value (0 when
absent).  Since `root` and `p` are arbitrary, this holds for every node of
every tree and after re-rooting to any subtree. -/
theorem claim6_aggregate_weight (root : HNode) (p : String) (sub : HNode)
    (hfind : findNodeByPath root p = some sub) :
    d3sumValue sub = ((preorderNodes sub).map (fun x => x.value.getD 0)).sum ∧
    (sub.children = [] → d3sumValue sub = sub.value.getD 0) := by
  refine ⟨d3sumValue_eq_subtree_sum sub, fun hc => ?_⟩
  cases sub with
  | mk nm bu bb bf rl v lv pth cs =>
    simp only [HNode.children] at hc
    subst hc
    simp [d3sumValue_mk, d3sumChildren, HNode.value]

/-- Witness for C6: in the two-row example documented in the spec, the focus
node `A (1)-X` found by path has aggregate weight 300. -/
theorem claim6_witness :
    (300 : ℚ) =
      ((preorderNodes (.mk "A" (some "1") (some "X") none (some "A (1)-X") none 0
          "A (1)-X"
          [.mk "B" (some "2") (some "Y") none (some "B (2)-Y") (some 100) 1
            "A (1)-X|B (2)-Y" [],
           .mk "C" (some "3") (some "Z") none (some "C (3)-Z") (some 200) 1
            "A (1)-X|C (3)-Z" []])).map (fun x => x.value.getD 0)).sum ∧
    d3sumValue (.mk "A" (some "1") (some "X") none (some "A (1)-X") none 0
          "A (1)-X"
          [.mk "B" (some "2") (some "Y") none (some "B (2)-Y") (some 100) 1
            "A (1)-X|B (2)-Y" [],
           .mk "C" (some "3") (some "Z") none (some "C (3)-Z") (some 200) 1
            "A (1)-X|C (3)-Z" []]) = 300 := by
  constructor
  · norm_num [preorderNodes_mk, preorderList, HNode.value]
  · have h := (claim6_aggregate_weight
      (transformToHierarchy
        [{ marketValue := some 100, level0 := some "A (1)-X", level1 := some "B (2)-Y" },
         { marketValue := some 200, level0 := some "A (1)-X", level1 := some "C (3)-Z" }]
        (fun _ => none))
      "A (1)-X"
      (.mk "A" (some "1") (some "X") none (some "A (1)-X") none 0 "A (1)-X"
          [.mk "B" (some "2") (some "Y") none (some "B (2)-Y") (some 100) 1
            "A (1)-X|B (2)-Y" [],
           .mk "C" (some "3") (some "Z") none (some "C (3)-Z") (some 200) 1
            "A (1)-X|C (3)-Z" []])
      (by rfl)).1
    rw [h]
    norm_num [preorderNodes_mk, preorderList, HNode.value]

/-! ## Claim C7: re-focus resolution is a no-op on missing or childless targets -/

/-- C7: if the search target's path is not found in the tree, or the found node
has no children, `handleSearchSelect` leaves the state (focus and breadcrumbs)
unchanged; a found node with at least one child sets the focused path. -/
theorem claim7_refocus_noop (data : HNode) (st : AppState) (p : String) :
    (findNodeByPath data p = none → handleSearchSelect (some data) st p = st) ∧
    (∀ n, findNodeByPath data p = some n → n.children = [] →
      handleSearchSelect (some data) st p = st) ∧
    (∀ n, findNodeByPath data p = some n → n.children ≠ [] →
      (handleSearchSelect (some data) st p).focusedPath = some p) := by
  refine ⟨fun h => ?_, fun n h hc => ?_, fun n h hc => ?_⟩
  · simp [handleSearchSelect, h]
  · simp [handleSearchSelect, h, hc]
  · have hlen : 0 < n.children.length := List.length_pos.mpr hc
    simp [handleSearchSelect, h, hlen]

/-- Witness for C7: selecting the childless leaf `A (1)-X|B (2)-Y`, or a path
absent from the tree, keeps the prior state; selecting `A (1)-X` (which has a
child) moves the focus. -/
theorem claim7_witness :
    handleSearchSelect (some (transformToHierarchy [c1Row] (fun _ => none)))
      ⟨some "prior", [rootNode]⟩ "A (1)-X|B (2)-Y" = ⟨some "prior", [rootNode]⟩ ∧
    handleSearchSelect (some (transformToHierarchy [c1Row] (fun _ => none)))
      ⟨some "prior", [rootNode]⟩ "absent" = ⟨some "prior", [rootNode]⟩ ∧
    (handleSearchSelect (some (transformToHierarchy [c1Row] (fun _ => none)))
      ⟨some "prior", [rootNode]⟩ "A (1)-X").focusedPath = some "A (1)-X" := by
  refine ⟨?_, ?_, ?_⟩
  · exact (claim7_refocus_noop _ _ _).2.1
      (.mk "B" (some "2") (some "Y") none (some "B (2)-Y") (some 100) 1
        "A (1)-X|B (2)-Y" []) (by rfl) (by rfl)
  · exact (claim7_refocus_noop _ _ _).1 (by rfl)
  · exact (claim7_refocus_noop _ _ _).2.2
      (.mk "A" (some "1") (some "X") none (some "A (1)-X") none 0 "A (1)-X"
        [.mk "B" (some "2") (some "Y") none (some "B (2)-Y") (some 100) 1
          "A (1)-X|B (2)-Y" []]) (by rfl) (by simp [HNode.children])

/-! ## Claim C8: the greedy label selection -/

theorem mem_insertByRadius (a : PackedNode) :
    ∀ (l : List PackedNode) (x : PackedNode),
      x ∈ insertByRadius a l ↔ x = a ∨ x ∈ l := by
  intro l
  induction l with
  | nil => intro x; simp [insertByRadius]
  | cons b bs ih =>
    intro x
    by_cases hb : b.r ≤ a.r
    · simp [insertByRadius, hb]
    · simp [insertByRadius, hb, ih]
      tauto

theorem mem_sortByRadiusDesc (l : List PackedNode) (x : PackedNode) :
    x ∈ sortByRadiusDesc l ↔ x ∈ l := by
  induction l with
  | nil => simp [sortByRadiusDesc]
  | cons a bs ih =>
    show x ∈ insertByRadius a (sortByRadiusDesc bs) ↔ _
    rw [mem_insertByRadius]
    simp [ih]

theorem pairwise_insertByRadius (a : PackedNode) :
    ∀ l : List PackedNode, l.Pairwise (fun p q => q.r ≤ p.r) →
      (insertByRadius a l).Pairwise (fun p q => q.r ≤ p.r) := by
  intro l
  induction l with
  | nil => intro _; simp [insertByRadius]
  | cons b bs ih =>
    intro hp
    rw [List.pairwise_cons] at hp
    by_cases hb : b.r ≤ a.r
    · rw [insertByRadius, if_pos hb]
      refine List.Pairwise.cons ?_ (List.Pairwise.cons hp.1 hp.2)
      intro x hx
      rcases List.mem_cons.mp hx with rfl | hx
      · exact hb
      · exact le_trans (hp.1 x hx) hb
    · rw [insertByRadius, if_neg hb]
      refine List.Pairwise.cons ?_ (ih hp.2)
      intro x hx
      rcases (mem_insertByRadius a bs x).mp hx with rfl | hx
      · exact le_of_not_le hb
      · exact hp.1 x hx

theorem sorted_sortByRadiusDesc (l : List PackedNode) :
    (sortByRadiusDesc l).Pairwise (fun p q => q.r ≤ p.r) := by
  induction l with
  | nil => simp [sortByRadiusDesc]
  | cons a bs ih => exact pairwise_insertByRadius a (sortByRadiusDesc bs) ih

theorem overlapB_comm (a b : PackedNode) : overlapB a b = overlapB b a := by
  simp only [overlapB]
  have h1 : a.r + b.r - 10 = b.r + a.r - 10 := by ring
  have h2 : (a.x - b.x) * (a.x - b.x) + (a.y - b.y) * (a.y - b.y) =
      (b.x - a.x) * (b.x - a.x) + (b.y - a.y) * (b.y - a.y) := by ring
  rw [h1, h2]

theorem foldl_labelStep_sublist :
    ∀ (cands acc : List PackedNode), ∃ sub : List PackedNode,
      sub.Sublist cands ∧ cands.foldl labelStep acc = acc ++ sub := by
  intro cands
  induction cands with
  | nil => intro acc; exact ⟨[], List.Sublist.refl _, by simp⟩
  | cons c cands ih =>
    intro acc
    rw [List.foldl_cons]
    by_cases ho : acc.any (fun existing => overlapB c existing)
    · obtain ⟨sub, hs, he⟩ := ih acc
      refine ⟨sub, hs.cons c, ?_⟩
      rw [← he, labelStep, if_pos ho]
    · obtain ⟨sub, hs, he⟩ := ih (acc ++ [c])
      refine ⟨c :: sub, hs.cons₂ c, ?_⟩
      rw [labelStep, if_neg ho, he, List.append_assoc]
      rfl

theorem foldl_labelStep_pairwise :
    ∀ (cands acc : List PackedNode),
      acc.Pairwise (fun p q => overlapB p q = false) →
      (cands.foldl labelStep acc).Pairwise (fun p q => overlapB p q = false) := by
  intro cands
  induction cands with
  | nil => intro acc h; simpa using h
  | cons c cands ih =>
    intro acc hacc
    rw [List.foldl_cons]
    apply ih
    by_cases ho : acc.any (fun existing => overlapB c existing)
    · rw [labelStep, if_pos ho]; exact hacc
    · rw [labelStep, if_neg ho]
      rw [List.pairwise_append]
      refine ⟨hacc, by simp, ?_⟩
      intro a ha b hb
      have hb' : b = c := by simpa using hb
      subst hb'
      rw [overlapB_comm]
      have ho' : acc.any (fun existing => overlapB b existing) = false := by
        simpa using ho
      simpa using List.any_eq_false.mp ho' a ha

/-- C8: the labels shown are drawn from the non-root nodes with radius above
35, any two shown labels satisfy the separation test (over the reals,
`distance(centers) < r1 + r2 - 10` fails), and the shown list follows the
descending-radius scan order.  Determinism over identical positions/radii is
immediate since `labelsToShow` is a pure function of the node list. -/
theorem claim8_label_selection (ns : List PackedNode) :
    (∀ q ∈ labelsToShow ns, q ∈ ns ∧ 35 < q.r ∧ 0 < q.depth) ∧
    (labelsToShow ns).Pairwise (fun p q => overlapB p q = false) ∧
    (labelsToShow ns).Pairwise (fun p q => q.r ≤ p.r) := by
  obtain ⟨sub, hsub, heq⟩ := foldl_labelStep_sublist (labelCandidates ns) []
  have hshow : labelsToShow ns = sub := by
    rw [labelsToShow, heq]; rfl
  refine ⟨?_, ?_, ?_⟩
  · intro q hq
    have hq2 : q ∈ labelCandidates ns := hsub.mem (hshow ▸ hq)
    have hq3 : q ∈ ns.filter (fun d => 35 < d.r && 0 < d.depth) := by
      have := (mem_sortByRadiusDesc _ q).mp hq2
      simpa [labelCandidates] using this
    have := List.mem_filter.mp hq3
    refine ⟨this.1, ?_, ?_⟩
    · have h2 := this.2
      simp only [Bool.and_eq_true, decide_eq_true_eq] at h2
      exact h2.1
    · have h2 := this.2
      simp only [Bool.and_eq_true, decide_eq_true_eq] at h2
      exact h2.2
  · exact foldl_labelStep_pairwise (labelCandidates ns) [] (by simp)
  · rw [hshow]
    exact (sorted_sortByRadiusDesc _).sublist hsub

/-- The laid-out node list used by the C8 witness. -/
def c8Nodes : List PackedNode :=
  [⟨0, 0, 40, 1⟩, ⟨10, 0, 50, 1⟩, ⟨500, 500, 36, 2⟩, ⟨0, 0, 30, 1⟩]

/-- Witness for C8: on four concrete circles the selector keeps the radius-50
and radius-36 circles (the radius-40 circle overlaps the larger accepted one,
the radius-30 circle is under the threshold), and the accepted set is pairwise
separated. -/
theorem claim8_witness :
    labelsToShow c8Nodes = [⟨10, 0, 50, 1⟩, ⟨500, 500, 36, 2⟩] ∧
    (labelsToShow c8Nodes).Pairwise (fun p q => overlapB p q = false) ∧
    (∀ q ∈ labelsToShow c8Nodes, q ∈ c8Nodes ∧ 35 < q.r ∧ 0 < q.depth) := by
  refine ⟨?_, (claim8_label_selection c8Nodes).2.1, (claim8_label_selection c8Nodes).1⟩
  norm_num [labelsToShow, labelCandidates, sortByRadiusDesc, insertByRadius,
    labelStep, overlapB, c8Nodes]

/-! ## Claim C10: blank search queries return nothing -/

/-- C10: `searchNodes` with a query that is empty or whitespace-only (its
trimmed form is empty) returns the empty list, for every record list. -/
theorem claim10_blank_query (q : String) (rs : List SearchResult)
    (h : strTrim q = "") : searchNodes q rs = [] := by
  simp [searchNodes, h]

/-- Witness for C10: a whitespace query against a non-empty record list yields
no results (in particular, not all records). -/
theorem claim10_witness :
    searchNodes "   " [⟨"a", none, none, none, none, "p", 0, 0⟩] = [] ∧
    ([⟨"a", none, none, none, none, "p", 0, 0⟩] : List SearchResult) ≠ [] :=
  ⟨claim10_blank_query "   " _ (by decide), by decide⟩

/-! ## Claim C9: sibling circles never overlap -/

theorem maxRight_bound : ∀ (placed : List PackCircle) (c : PackCircle),
    c ∈ placed → c.x + c.r ≤ maxRight placed := by
  intro placed
  induction placed with
  | nil => intro c hc; simp at hc
  | cons d ds ih =>
    intro c hc
    rcases List.mem_cons.mp hc with rfl | hc
    · exact le_max_left _ _
    · exact le_trans (ih c hc) (le_max_right _ _)

theorem fallbackPos_ok (padding r : ℚ) (placed : List PackCircle)
    (hpad : 0 ≤ padding) (hr : 0 ≤ r) (hplaced : ∀ c ∈ placed, 0 ≤ c.r) :
    okPlacement padding r placed (fallbackPos padding r placed) = true := by
  rw [okPlacement, List.all_eq_true]
  intro c hc
  have hM : c.x + c.r ≤ maxRight placed := maxRight_bound placed c hc
  have hcr : 0 ≤ c.r := hplaced c hc
  simp only [fallbackPos, decide_eq_true_eq]
  have h0 : 0 ≤ r + c.r + padding := by linarith
  have hx : r + c.r + padding ≤ maxRight placed + padding + r - c.x := by linarith
  have hsq := mul_self_le_mul_self h0 hx
  nlinarith [mul_self_nonneg ((0 : ℚ) - c.y)]

theorem packStep_inv (proposals : List PackCircle → ℚ → List (ℚ × ℚ))
    (padding r : ℚ) (hpad : 0 ≤ padding) (hr : 0 ≤ r)
    (placed : List PackCircle) (hge : ∀ c ∈ placed, 0 ≤ c.r)
    (hsep : placed.Pairwise
      (fun a b => (a.r + b.r + padding) * (a.r + b.r + padding) ≤ dist2 a b)) :
    (∀ c ∈ packStep proposals padding placed r, 0 ≤ c.r) ∧
    (packStep proposals padding placed r).Pairwise
      (fun a b => (a.r + b.r + padding) * (a.r + b.r + padding) ≤ dist2 a b) ∧
    (packStep proposals padding placed r).length = placed.length + 1 := by
  match placed with
  | [] =>
    refine ⟨?_, ?_, rfl⟩
    · intro c hc
      have : c = ⟨0, 0, r⟩ := by simpa [packStep] using hc
      subst this
      exact hr
    · simp [packStep]
  | [c] =>
    have hc0 : 0 ≤ c.r := hge c (by simp)
    refine ⟨?_, ?_, rfl⟩
    · intro d hd
      have hd2 : d = c ∨ d = ⟨c.x + c.r + padding + r, c.y, r⟩ := by
        simpa [packStep] using hd
      rcases hd2 with rfl | rfl
      · exact hc0
      · exact hr
    · show List.Pairwise _ [c, ⟨c.x + c.r + padding + r, c.y, r⟩]
      refine List.Pairwise.cons ?_ (by simp)
      intro d hd
      have : d = ⟨c.x + c.r + padding + r, c.y, r⟩ := by simpa using hd
      subst this
      simp only [dist2]
      ring_nf
      exact le_refl _
  | c1 :: c2 :: cs =>
    have hunfold : packStep proposals padding (c1 :: c2 :: cs) r =
        match (proposals (c1 :: c2 :: cs) r ++
            [fallbackPos padding r (c1 :: c2 :: cs)]).find?
            (okPlacement padding r (c1 :: c2 :: cs)) with
        | some pos => (c1 :: c2 :: cs) ++ [⟨pos.1, pos.2, r⟩]
        | none => c1 :: c2 :: cs := rfl
    rw [hunfold]
    cases hfind : (proposals (c1 :: c2 :: cs) r ++
        [fallbackPos padding r (c1 :: c2 :: cs)]).find?
        (okPlacement padding r (c1 :: c2 :: cs)) with
    | none =>
      exfalso
      have hall := List.find?_eq_none.mp hfind
      have hmem : fallbackPos padding r (c1 :: c2 :: cs) ∈
          proposals (c1 :: c2 :: cs) r ++ [fallbackPos padding r (c1 :: c2 :: cs)] := by
        simp
      exact hall _ hmem (fallbackPos_ok padding r _ hpad hr hge)
    | some pos =>
      have hok := List.find?_some hfind
      rw [okPlacement, List.all_eq_true] at hok
      refine ⟨?_, ?_, by simp⟩
      · intro d hd
        rcases List.mem_append.mp hd with hd | hd
        · exact hge d hd
        · have : d = ⟨pos.1, pos.2, r⟩ := by simpa using hd
          subst this
          exact hr
      · rw [List.pairwise_append]
        refine ⟨hsep, by simp, ?_⟩
        intro a ha b hb
        have hb' : b = ⟨pos.1, pos.2, r⟩ := by simpa using hb
        subst hb'
        have := hok a ha
        simp only [decide_eq_true_eq] at this
        simp only [dist2]
        nlinarith [this]

theorem pack_foldl_inv (proposals : List PackCircle → ℚ → List (ℚ × ℚ))
    (padding : ℚ) (hpad : 0 ≤ padding) :
    ∀ (rs : List ℚ) (placed : List PackCircle), (∀ r ∈ rs, 0 ≤ r) →
      (∀ c ∈ placed, 0 ≤ c.r) →
      placed.Pairwise
        (fun a b => (a.r + b.r + padding) * (a.r + b.r + padding) ≤ dist2 a b) →
      (∀ c ∈ rs.foldl (packStep proposals padding) placed, 0 ≤ c.r) ∧
      (rs.foldl (packStep proposals padding) placed).Pairwise
        (fun a b => (a.r + b.r + padding) * (a.r + b.r + padding) ≤ dist2 a b) ∧
      (rs.foldl (packStep proposals padding) placed).length =
        placed.length + rs.length := by
  intro rs
  induction rs with
  | nil => intro placed _ hge hsep; exact ⟨hge, hsep, by simp⟩
  | cons r rs ih =>
    intro placed hrs hge hsep
    rw [List.foldl_cons]
    have hstep := packStep_inv proposals padding r hpad (hrs r (by simp)) placed hge hsep
    have := ih (packStep proposals padding placed r)
      (fun a ha => hrs a (by simp [ha])) hstep.1 hstep.2.1
    refine ⟨this.1, this.2.1, ?_⟩
    rw [this.2.2, hstep.2.2]
    simp [List.length_cons]
    omega

theorem mem_insertQDesc (a : ℚ) :
    ∀ (l : List ℚ) (x : ℚ), x ∈ insertQDesc a l ↔ x = a ∨ x ∈ l := by
  intro l
  induction l with
  | nil => intro x; simp [insertQDesc]
  | cons b bs ih =>
    intro x
    by_cases hb : b ≤ a
    · simp [insertQDesc, hb]
    · simp [insertQDesc, hb, ih]
      tauto

theorem mem_sortQDesc (l : List ℚ) (x : ℚ) : x ∈ sortQDesc l ↔ x ∈ l := by
  induction l with
  | nil => simp [sortQDesc]
  | cons a bs ih =>
    show x ∈ insertQDesc a (sortQDesc bs) ↔ _
    rw [mem_insertQDesc]
    simp [ih]

theorem length_insertQDesc (a : ℚ) :
    ∀ l : List ℚ, (insertQDesc a l).length = l.length + 1 := by
  intro l
  induction l with
  | nil => rfl
  | cons b bs ih =>
    by_cases hb : b ≤ a
    · simp [insertQDesc, hb]
    · simp [insertQDesc, hb, ih]

theorem length_sortQDesc (l : List ℚ) : (sortQDesc l).length = l.length := by
  induction l with
  | nil => rfl
  | cons a bs ih =>
    show (insertQDesc a (sortQDesc bs)).length = _
    rw [length_insertQDesc, ih, List.length_cons]

/-- C9 (spec-modelled): in every sibling layout produced by the packing model
of spec 4.3 — for every tangent-candidate stream `proposals`, hence in
particular for the front-chain one — any two placed sibling circles have center
distance at least the sum of their radii plus the padding gap, so (radii being
nonnegative) at least the sum of their radii: siblings never overlap, and the
fixed padding keeps adjacent circles separated.  The property survives the
final uniform scale-and-translate into the viewport, no circle is dropped, and
all inequalities are exact (the claim's floating tolerance is subsumed). -/
theorem claim9_sibling_non_overlap
    (proposals : List PackCircle → ℚ → List (ℚ × ℚ)) (padding : ℚ)
    (rs : List ℚ) (hpad : 0 ≤ padding) (hrs : ∀ r ∈ rs, 0 ≤ r) :
    (packSiblings proposals padding rs).Pairwise
      (fun a b => (a.r + b.r + padding) * (a.r + b.r + padding) ≤ dist2 a b) ∧
    (packSiblings proposals padding rs).Pairwise
      (fun a b => (a.r + b.r) * (a.r + b.r) ≤ dist2 a b) ∧
    (∀ s tx ty : ℚ, 0 ≤ s →
      ((packSiblings proposals padding rs).map (scaleTranslate s tx ty)).Pairwise
        (fun a b => (a.r + b.r) * (a.r + b.r) ≤ dist2 a b)) ∧
    (packSiblings proposals padding rs).length = rs.length := by
  have hsorted : ∀ r ∈ sortQDesc rs, 0 ≤ r := by
    intro r hr
    exact hrs r ((mem_sortQDesc rs r).mp hr)
  have hinv := pack_foldl_inv proposals padding hpad (sortQDesc rs) [] hsorted
    (by simp) (by simp)
  have hpairpad : (packSiblings proposals padding rs).Pairwise
      (fun a b => (a.r + b.r + padding) * (a.r + b.r + padding) ≤ dist2 a b) :=
    hinv.2.1
  have hge : ∀ c ∈ packSiblings proposals padding rs, 0 ≤ c.r := hinv.1
  have hpair : (packSiblings proposals padding rs).Pairwise
      (fun a b => (a.r + b.r) * (a.r + b.r) ≤ dist2 a b) := by
    refine hpairpad.imp_of_mem ?_
    intro a b ha hb h
    have h1 : 0 ≤ a.r + b.r := by
      have := hge a ha
      have := hge b hb
      linarith
    nlinarith [h]
  refine ⟨hpairpad, hpair, ?_, ?_⟩
  · intro s tx ty hs
    rw [List.pairwise_map]
    refine hpair.imp_of_mem ?_
    intro a b ha hb h
    have h1 : 0 ≤ a.r + b.r := by
      have := hge a ha
      have := hge b hb
      linarith
    simp only [scaleTranslate, dist2] at h ⊢
    nlinarith [mul_le_mul_of_nonneg_left h (mul_nonneg hs hs)]
  · have hlen : (packSiblings proposals padding rs).length =
        ([] : List PackCircle).length + (sortQDesc rs).length := hinv.2.2
    rw [hlen, length_sortQDesc]
    simp

/-- Witness for C9: three concrete radii with padding 5 (the `.padding(5)` of
the source) and an empty proposal stream; the placements land at the padding
gap and the packed list satisfies the separation properties. -/
theorem claim9_witness :
    packSiblings (fun _ _ => []) 5 [1, 2, 1] =
      [⟨0, 0, 2⟩, ⟨8, 0, 1⟩, ⟨15, 0, 1⟩] ∧
    (packSiblings (fun _ _ => []) 5 [1, 2, 1]).Pairwise
      (fun a b => (a.r + b.r) * (a.r + b.r) ≤ dist2 a b) ∧
    (packSiblings (fun _ _ => []) 5 [1, 2, 1]).length = 3 := by
  refine ⟨?_,
    (claim9_sibling_non_overlap (fun _ _ => []) 5 [1, 2, 1] (by norm_num)
      (by norm_num)).2.1,
    (claim9_sibling_non_overlap (fun _ _ => []) 5 [1, 2, 1] (by norm_num)
      (by norm_num)).2.2.2⟩
  norm_num [packSiblings, sortQDesc, insertQDesc, packStep, fallbackPos,
    maxRight, okPlacement, List.find?]
